import Mathlib

/-!
The divvy ingress controller: worker registry, dispatcher, registration API and bootstrap
producer.

A shallow embedding of

* `vendor/github.com/r0fls/divvy/pkg/loadbalancer/api.go` (namespace `loadbalancer`): the
  worker registry `Workers`, the dispatcher `LoadBalancer.ServeHTTP`, `LoadBalancer.Remove`
  and the registration handler `Api.ServeHTTP`;
* `pkg/controller/controller.go` (namespace `controller`): the bootstrap producer
  `Controller.Create` and the status helper `sliceToStatus`.

Go maps are total functions returning the zero value on a missing key (`nil` slice, `0`,
`nil` pointer).  A run-time panic is an explicit outcome.  Handlers are run one at a time
(no interleaving is modelled).
-/

namespace loadbalancer

/-! ## Data model -/

/-- The struct `Worker` (api.go 19-24). -/
structure Worker where
  Host : String
  Address : String
  Port : Int
  HealthcheckPath : String
deriving DecidableEq, Repr

/-- The zero value of `Worker`, the content of `var worker Worker`. -/
def Worker.zero : Worker := ⟨"", "", 0, ""⟩

/-- The struct `Workers` (api.go 26-30).  `Mutex host = false` stands for the `nil`
pointer a Go map yields for a host whose lock was never created. -/
structure Workers where
  Items : String → List Worker
  Position : String → Int
  Mutex : String → Bool

/-- The registry built by `Start` (api.go 151-155): three empty maps. -/
def Workers.empty : Workers := ⟨fun _ => [], fun _ => 0, fun _ => false⟩

/-- Map assignment `m[k] = v`. -/
def setKey {α : Type} (m : String → α) (k : String) (v : α) : String → α :=
  fun x => if x = k then v else m x

/-! ## float64 arithmetic of `Inc` -/

/-- Spacing of the float64 grid around a natural number `a`: the least power of two `u`
(found by doubling) with `a / u < 2 ^ 53`. -/
def ulpAux : Nat → Nat → Nat → Nat
  | 0, _, u => u
  | fuel + 1, a, u => if a / u < 2 ^ 53 then u else ulpAux fuel a (2 * u)

/-- The conversion `float64(x)` of an integer, as the integer value of the resulting float:
exact below `2 ^ 53` in magnitude, otherwise rounded to the nearest multiple of the grid
spacing, ties to the even mantissa. -/
def float64OfInt (x : Int) : Int :=
  let a := x.natAbs
  if a < 2 ^ 53 then x
  else
    let u := ulpAux a a 1
    let q := a / u
    let r := a % u
    let q1 := if 2 * r < u then q else if u < 2 * r then q + 1 else if q % 2 = 0 then q else q + 1
    Int.sign x * ((q1 * u : Nat) : Int)

/-- The expression `int(math.Mod(float64(pos)+1, float64(n)))` of `Inc`.  `math.Mod` is exact
and takes the sign of its first argument (`Int.tmod`); for `n = 0` it is NaN, and Go leaves
the integer a NaN converts to implementation-dependent: `nanInt` is that integer
(`-2 ^ 63` on amd64). -/
def incValue (nanInt : Int) (pos : Int) (n : Nat) : Int :=
  let x := float64OfInt (float64OfInt pos + 1)
  let y := float64OfInt n
  if y = 0 then nanInt else Int.tmod x y

/-! ## Registry operations -/

/-- Go function `Workers.Get` (api.go 42-44). -/
def Workers.Get (w : Workers) (key : String) : List Worker := w.Items key

/-- Go function `Workers.Set` (api.go 46-50).  `none` is the nil-pointer panic of
`w.Mutex[host].Lock()` for a host without a lock; nothing has been written at that point. -/
def Workers.Set (w : Workers) (host : String) (value : Worker) : Option Workers :=
  if w.Mutex host then
    some { w with Items := setKey w.Items host (w.Items host ++ [value]) }
  else none

/-- Go function `Workers.GetPosition` (api.go 52-56); `none` is the nil-pointer panic on a missing
lock. -/
def Workers.GetPosition (w : Workers) (host : String) : Option Int :=
  if w.Mutex host then some (w.Position host) else none

/-- Go function `Workers.Inc` (api.go 58-62); `none` is the nil-pointer panic on a missing lock. -/
def Workers.Inc (nanInt : Int) (w : Workers) (host : String) : Option Workers :=
  if w.Mutex host then
    some { w with
      Position := setKey w.Position host
        (incValue nanInt (w.Position host) (w.Get host).length) }
  else none

/-- Result of a call that may panic after it has already written to the registry. -/
structure Outcome where
  state : Workers
  panicked : Bool

/-- The `range` loop of `Remove` (api.go 104-111).  `n` iterations remain, `i` is the loop
index, `arr` holds the entries of the backing array that `range` captured (its length is
that of the list when the loop started) and `items` is the current `Items` map.

On a match at index `i` the code evaluates, for `g = w.Host`,
`append(Items[g][:i], Items[g][i+1:]...)`: the slice expression `Items[g][i+1:]` panics
unless `i + 1 ≤ len(Items[g])`; otherwise the entries after `i` are moved one place down
inside the backing array of `Items[g]` and the slice gets one shorter.  When `g` is the
host being ranged over that array is `arr`, so later iterations read the moved entries
(the last place keeps its old entry). -/
def removeLoop (worker : Worker) :
    Nat → Nat → List Worker → (String → List Worker) → (String → List Worker) × Bool
  | 0, _, _, items => (items, false)
  | n + 1, i, arr, items =>
    match arr.get? i with
    | none => (items, false)
    | some w =>
      if w.Address = worker.Address ∧ w.Port = worker.Port then
        let cur := items w.Host
        if i + 1 ≤ cur.length then
          let new := cur.take i ++ cur.drop (i + 1)
          let arr1 := if w.Host = worker.Host then new ++ arr.drop new.length else arr
          removeLoop worker n (i + 1) arr1 (setKey items w.Host new)
        else (items, true)
      else removeLoop worker n (i + 1) arr items

/-- Go function `LoadBalancer.Remove` (api.go 103-112).  It takes no lock and never touches
`Position`. -/
def LoadBalancer.Remove (lb : Workers) (worker : Worker) : Outcome :=
  let l := lb.Items worker.Host
  let r := removeLoop worker l.length 0 l lb.Items
  ⟨{ lb with Items := r.1 }, r.2⟩

/-! ## Registration API -/

/-- What a handler wrote: the status code (200 unless `WriteHeader` was called) and the
body. -/
structure Response where
  Status : Nat
  Body : String
deriving DecidableEq, Repr

/-- A request to the registration API: its method, and what `decoder.Decode(&worker)` makes
of its body: the content of `worker` after the call (fields decoded before an error stay
set) and whether the returned error is non-nil. -/
structure Request where
  Method : String
  Decoded : Worker
  DecodeErr : Bool

/-- The format of api.go 143 applied to its operands. -/
def addedBody (worker : Worker) (count : Nat) : String :=
  "added worker " ++ worker.Address ++ " to workers for host " ++ worker.Host ++
    ". There are now " ++ toString count ++ " workers for " ++ worker.Host ++ "\n"

/-- The format of api.go 131 applied to its operands. -/
def removedBody (worker : Worker) (count : Nat) : String :=
  "removed worker " ++ worker.Address ++ " from workers for host " ++ worker.Host ++
    ". There are now " ++ toString count ++ " workers for " ++ worker.Host ++ "\n"

/-- Result of a registration request: the registry afterwards and the response; `none`
when the handler panicked before writing anything. -/
structure ApiResult where
  state : Workers
  response : Option Response

/-- Lines 134-143 of `Api.ServeHTTP`: the error check, the lazy lock and the append. -/
def Api.register (lb : Workers) (worker : Worker) (err : Bool) : ApiResult :=
  if err then ⟨lb, some ⟨400, "Invalid post data"⟩⟩
  else
    let lb1 : Workers :=
      if lb.Mutex worker.Host then lb
      else { lb with Mutex := setKey lb.Mutex worker.Host true }
    match lb1.Set worker.Host worker with
    | none => ⟨lb1, none⟩
    | some lb2 => ⟨lb2, some ⟨200, addedBody worker (lb2.Get worker.Host).length⟩⟩

/-- Go function `Api.ServeHTTP` (api.go 119-144).  Only `POST` and `DELETE` decode the body;
any other method falls through to the error check with the zero `worker` and a nil error.  The
`DELETE` branch returns before the error check. -/
def Api.ServeHTTP (lb : Workers) (r : Request) : ApiResult :=
  if r.Method = "POST" then Api.register lb r.Decoded r.DecodeErr
  else if r.Method = "DELETE" then
    let out := LoadBalancer.Remove lb r.Decoded
    if out.panicked then ⟨out.state, none⟩
    else ⟨out.state,
      some ⟨200, removedBody r.Decoded (out.state.Get r.Decoded.Host).length⟩⟩
  else Api.register lb Worker.zero false

/-! ## Formatting with no operands

`fmt.Fprintf(w, format)` is Go's standard library, not part of the repository.  The
dispatcher calls it with the upstream body as `format` and no operands, so the model
follows `doPrintf` of `fmt/print.go` for an empty operand list.  A Lean `String` is a
sequence of Unicode characters: the model covers the bodies that are valid UTF-8. -/

/-- The flag characters consumed after a percent sign. -/
def fmtIsFlag (c : Char) : Bool :=
  c = '#' || c = '0' || c = '+' || c = '-' || c = ' '

/-- Loop of `parsenum`: reads decimal digits; gives whether a number was read and the
rest of the segment.  A number past `1e6` makes `parsenum` give up and skip to the end of
the segment. -/
def fmtParsenumLoop : List Char → Nat → Bool → Bool × List Char
  | [], _, isnum => (isnum, [])
  | c :: cs, num, isnum =>
    if '0' ≤ c ∧ c ≤ '9' then
      if 1000000 < num then (false, [])
      else fmtParsenumLoop cs (num * 10 + (c.toNat - 48)) true
    else (isnum, c :: cs)

/-- The call `parsenum(format, i, end)` on the segment `format[i:end]`. -/
def fmtParsenum (seg : List Char) : Bool × List Char := fmtParsenumLoop seg 0 false

/-- The call `parseArgNumber(format[i:])` on text starting with an opening bracket: how
many characters the index takes and whether it is well formed (`[n]`). -/
def fmtParseArgNumber (s : List Char) : Nat × Bool :=
  if s.length < 3 then (1, false)
  else
    let seg := (s.drop 1).takeWhile (fun c => c != ']')
    if seg.length + 1 < s.length then
      let r := fmtParsenum seg
      (seg.length + 2, r.1 && r.2.isEmpty)
    else (1, false)

/-- The call `argNumber` with no operands: the rest of the format, whether an index was
found, and the new value of `goodArgNum` (no index is in range, so any bracket clears
it). -/
def fmtArgNumber (s : List Char) (good : Bool) : List Char × Bool × Bool :=
  match s with
  | '[' :: _ =>
    let r := fmtParseArgNumber s
    (s.drop r.1, r.2, false)
  | _ => (s, false, good)

/-- One directive of `doPrintf`, given the text after the percent sign: what is written
and the rest of the format still to be processed (empty after `%!(NOVERB)`, where the
loop ends).  A dot opens a precision only when a character follows it (`i+1 < end`); a dot
that ends the format is the verb. -/
def fmtDirective (s0 : List Char) : List Char × List Char :=
  let s1 := s0.dropWhile fmtIsFlag
  let a1 := fmtArgNumber s1 true
  let w : List Char × List Char × Bool × Bool :=
    match a1.1 with
    | '*' :: t => ("%!(BADWIDTH)".toList, t, false, a1.2.2)
    | s2 =>
      let r := fmtParsenum s2
      ([], r.2, a1.2.1, a1.2.2 && !(a1.2.1 && r.1))
  let p : List Char × List Char × Bool × Bool :=
    match w.2.1 with
    | '.' :: c :: t =>
      let a2 := fmtArgNumber (c :: t) (w.2.2.2 && !w.2.2.1)
      match a2.1 with
      | '*' :: t2 => ("%!(BADPREC)".toList, t2, false, a2.2.2)
      | s4 => ([], (fmtParsenum s4).2, a2.2.1, a2.2.2)
    | s3 => ([], s3, w.2.2.1, w.2.2.2)
  let a3 := if p.2.2.1 then (p.2.1, true, p.2.2.2) else fmtArgNumber p.2.1 p.2.2.2
  match a3.1 with
  | [] => (w.1 ++ p.1 ++ "%!(NOVERB)".toList, [])
  | verb :: rest =>
    if verb = '%' then (w.1 ++ p.1 ++ ['%'], rest)
    else if !a3.2.2 then (w.1 ++ p.1 ++ "%!".toList ++ [verb] ++ "(BADINDEX)".toList, rest)
    else (w.1 ++ p.1 ++ "%!".toList ++ [verb] ++ "(MISSING)".toList, rest)

/-- The format loop of `doPrintf`: text up to the next percent sign is copied, then one
directive is processed.  Every round consumes a character, so `fuel` above the length of
the format is never used up. -/
def fmtLoop : Nat → List Char → List Char
  | 0, _ => []
  | fuel + 1, s =>
    let lit := s.takeWhile (fun c => c != '%')
    match s.dropWhile (fun c => c != '%') with
    | [] => lit
    | _ :: t =>
      let d := fmtDirective t
      lit ++ d.1 ++ fmtLoop fuel d.2

/-- What `fmt.Fprintf(w, format)` writes. -/
def Sprintf (format : String) : String :=
  String.mk (fmtLoop (format.length + 1) format.toList)

/-! ## Dispatcher -/

/-- How the forward of one request goes, as far as the dispatcher's control flow sees it:
`http.NewRequest` fails; `client.Do` fails; `ioutil.ReadAll` fails after reading `read`;
or the body is read in full. -/
inductive Upstream where
  | newRequestErr
  | doErr
  | readErr (read : String)
  | ok (body : String)
deriving DecidableEq, Repr

/-- What one run of the dispatcher's handler did: its response (`none` when it panicked),
the worker `client.Do` was called for, and whether the goroutine calling `lb.Inc(r.Host)`
was started. -/
structure Dispatch where
  response : Option Response
  forwardedTo : Option Worker
  inc : Bool
deriving DecidableEq, Repr

/-- Go function `LoadBalancer.ServeHTTP` (api.go 64-101) for a request with `r.Host = host`.  The
handler itself does not write to the registry.  `workers[position]` panics on an index
outside `0 ≤ position < len(workers)`.  After a failed `ReadAll` the handler does not
return: the 500 text is followed by what was read. -/
def LoadBalancer.ServeHTTP (lb : Workers) (host : String) (up : Upstream) : Dispatch :=
  let workers := lb.Get host
  if workers.length = 0 then ⟨some ⟨404, Sprintf "Not found.\n"⟩, none, false⟩
  else
    match lb.GetPosition host with
    | none => ⟨none, none, false⟩
    | some position =>
      if position < 0 then ⟨none, none, false⟩
      else
        match workers.get? position.toNat with
        | none => ⟨none, none, false⟩
        | some wk =>
          match up with
          | .newRequestErr => ⟨some ⟨500, Sprintf "Internal Server Error.\n"⟩, none, false⟩
          | .doErr => ⟨some ⟨500, Sprintf "Internal Server Error.\n"⟩, some wk, true⟩
          | .readErr read =>
            ⟨some ⟨500, Sprintf "Internal Server Error.\n" ++ Sprintf read⟩, some wk, true⟩
          | .ok body => ⟨some ⟨200, Sprintf body⟩, some wk, true⟩

/-- A sequence of requests for `host` handled one after the other, each one's `Inc`
goroutine run to completion before the next request is served, with no registration
request in between.  `none` when an `Inc` goroutine panics (which ends the process). -/
def LoadBalancer.serveAll (nanInt : Int) (host : String) :
    List Upstream → Workers → Option (List Dispatch)
  | [], _ => some []
  | up :: ups, lb =>
    let d := LoadBalancer.ServeHTTP lb host up
    if d.inc then
      match lb.Inc nanInt host with
      | none => none
      | some lb1 => (LoadBalancer.serveAll nanInt host ups lb1).map (fun ds => d :: ds)
    else (LoadBalancer.serveAll nanInt host ups lb).map (fun ds => d :: ds)

/-! ## Runs of the registry -/

/-- An operation on the registry: a request to the registration API, or one run of
`lb.Inc(host)`. -/
inductive Op where
  | request (r : Request)
  | advance (host : String)

/-- The registry after an operation.  An `Inc` that panics on a missing lock has not
written anything. -/
def Op.apply (nanInt : Int) (lb : Workers) : Op → Workers
  | .request r => (Api.ServeHTTP lb r).state
  | .advance host => (lb.Inc nanInt host).getD lb

/-- The registry after a sequence of operations, run one after the other. -/
def runOps (nanInt : Int) (ops : List Op) (lb : Workers) : Workers :=
  ops.foldl (Op.apply nanInt) lb

/-- The registries the process can be in: those a sequence of operations produces from
the empty registry of `Start`. -/
def Reachable (nanInt : Int) (lb : Workers) : Prop :=
  ∃ ops : List Op, runOps nanInt ops Workers.empty = lb

/-- A `POST` whose body decodes to `w`. -/
def post (w : Worker) : Op := .request ⟨"POST", w, false⟩

/-- A `DELETE` whose body decodes to `w`. -/
def delete (w : Worker) : Op := .request ⟨"DELETE", w, false⟩

/-- Every host with a worker has a lock. -/
def Locked (lb : Workers) : Prop :=
  ∀ h : String, lb.Items h ≠ [] → lb.Mutex h = true

/-- Every entry filed under a host names that host. -/
def HostConsistent (items : String → List Worker) : Prop :=
  ∀ h : String, ∀ w ∈ items h, w.Host = h

end loadbalancer

namespace controller

open loadbalancer

/-! ## Ingress resources

The Kubernetes API types are not part of the repository; the structures below keep the
fields the controller reads. -/

/-- One path of a rule: `path.Backend.ServiceName` and the integer
`path.Backend.ServicePort.IntValue()`. -/
structure HTTPIngressPath where
  ServiceName : String
  ServicePort : Int
deriving DecidableEq, Repr

/-- One routing rule: `rule.Host` and the pointer `rule.IngressRuleValue.HTTP` (`none` is
`nil`), which holds the paths. -/
structure IngressRule where
  Host : String
  HTTP : Option (List HTTPIngressPath)
deriving DecidableEq, Repr

/-- An ingress resource: its annotation map (as an association list read with
`List.lookup`) and `Spec.Rules`. -/
structure Ingress where
  Annotations : List (String × String)
  Rules : List IngressRule
deriving DecidableEq, Repr

/-- The struct `Change` (controller.go 31-35).  The field `Type` is named `Kind` here, and
`Ingress` holds the resource the pointer refers to when the Change is sent. -/
structure Change where
  Kind : String
  Object : Worker
  Ingress : Ingress
deriving DecidableEq, Repr

/-- The constant `IngressKey` (controller.go 41). -/
def IngressKey : String := "kubernetes.io/ingress.class"

/-- The inner loop of `Create` (controller.go 57-67): one Change per path of a rule. -/
def pathChanges (ingress : Ingress) (rule : IngressRule) (paths : List HTTPIngressPath) :
    List Change :=
  paths.map fun path => ⟨"ADDED", ⟨rule.Host, path.ServiceName, path.ServicePort, ""⟩, ingress⟩

/-- The loop over `ingress.Spec.Rules` (controller.go 55-68): the Changes sent and whether
the loop panicked on a rule whose `HTTP` pointer is nil. -/
def ruleChanges (ingress : Ingress) : List IngressRule → List Change × Bool
  | [] => ([], false)
  | rule :: rules =>
    match rule.HTTP with
    | none => ([], true)
    | some paths =>
      let r := ruleChanges ingress rules
      (pathChanges ingress rule paths ++ r.1, r.2)

/-- Go function `Controller.Create` (controller.go 45-70) on the listing `changes.Items`: the
Changes sent on `c.Changes`, in order, and whether the function panicked.  A resource without the
annotation or with another class makes the function `return`. -/
def Controller.Create : List Ingress → List Change × Bool
  | [] => ([], false)
  | ingress :: items =>
    match ingress.Annotations.lookup IngressKey with
    | none => ([], false)
    | some cls =>
      if cls ≠ "divvy" then ([], false)
      else
        let r := ruleChanges ingress ingress.Rules
        if r.2 then (r.1, true)
        else
          let rest := Controller.Create items
          (r.1 ++ rest.1, rest.2)

/-- Whether the bootstrap filter accepts a resource, in the words of the specification:
the annotation `kubernetes.io/ingress.class` is present with value exactly `divvy`. -/
def accepted (ingress : Ingress) : Bool :=
  ingress.Annotations.lookup IngressKey == some "divvy"

/-- The emission the specification describes for a listing: for each accepted resource, in
listing order, one `ADDED` Change per (rule, path) pair; nothing for the others. -/
def specCreate (items : List Ingress) : List Change :=
  (items.filter accepted).flatMap fun ingress =>
    ingress.Rules.flatMap fun rule => pathChanges ingress rule (rule.HTTP.getD [])

/-! ## Status list -/

/-- The fields of `apiv1.LoadBalancerIngress` the controller sets. -/
structure LoadBalancerIngress where
  IP : String
  Hostname : String
deriving DecidableEq, Repr

/-- The loop of `sliceToStatus` (controller.go 100-106).  `parseIP ep` tells whether
`net.ParseIP(ep)` (Go standard library) is non-nil. -/
def classify (parseIP : String → Bool) (ep : String) : LoadBalancerIngress :=
  if parseIP ep then ⟨ep, ""⟩ else ⟨"", ep⟩

/-- Go function `sliceToStatus` (controller.go 98-113).  `sort.SliceStable` with the comparator
`lbi[a].IP < lbi[b].IP` is modelled by a stable insertion sort: every entry is inserted
before the first entry of the sorted rest whose `IP` is not smaller. -/
def sliceToStatus (parseIP : String → Bool) (endpoints : List String) :
    List LoadBalancerIngress :=
  List.insertionSort (fun a b => a.IP ≤ b.IP) (endpoints.map (classify parseIP))

end controller

open loadbalancer controller

/-! ## Sample data -/

/-- The worker of the specification's registration example. -/
def worker1 : Worker := ⟨"svc.local", "10.0.0.1", 9000, ""⟩

/-- A second worker of the same host. -/
def worker2 : Worker := ⟨"svc.local", "10.0.0.2", 9000, ""⟩

/-- A third worker of the same host. -/
def worker3 : Worker := ⟨"svc.local", "10.0.0.3", 9000, ""⟩

/-- An ingress resource without any annotation. -/
def plainIngress : Ingress := ⟨[], [⟨"other.local", some [⟨"svcB", 80⟩]⟩]⟩

/-- The ingress resource of the specification's end-to-end example. -/
def divvyIngress : Ingress :=
  ⟨[("kubernetes.io/ingress.class", "divvy")], [⟨"app.local", some [⟨"svcA", 8080⟩]⟩]⟩

/-- The segments of a text between its dots. -/
def splitDots : List Char → List (List Char)
  | [] => [[]]
  | c :: cs =>
    match splitDots cs with
    | [] => [[]]
    | seg :: segs => if c = '.' then [] :: seg :: segs else (c :: seg) :: segs

/-- Whether a segment is a decimal number of one to three digits, at most 255. -/
def isOctet (seg : List Char) : Bool :=
  seg ≠ [] && seg.length ≤ 3 && seg.all (fun c => '0' ≤ c && c ≤ '9') &&
    seg.foldl (fun n c => 10 * n + (c.toNat - 48)) 0 ≤ 255

/-- A recogniser of dotted-decimal IPv4 literals: a sample classifier of endpoints, used
where the status list is computed on concrete endpoints. -/
def dottedQuad (s : String) : Bool :=
  (splitDots s.toList).length = 4 && (splitDots s.toList).all isOctet

/-! ## Theorems -/

/-- The formatter on formats with and without a verb: a percent sign that ends the format,
a dot that ends the format (it is the verb, not a precision), a doubled percent sign, and
a precision before the verb. -/
theorem Sprintf_samples :
    Sprintf "100%" = "100%!(NOVERB)" ∧ Sprintf "%." = "%!.(MISSING)" ∧
      Sprintf "100%% sure" = "100% sure" ∧ Sprintf "%.2f" = "%!f(MISSING)" := by
  decide

/-- C2 (cursor invariant), evaluated on the code: after two registrations, one advance and
the removal of the second worker the host has one worker and cursor 1, so the cursor is
not below the length of the list, and the dispatcher's `workers[position]` panics. -/
theorem cursor_out_of_range_after_remove : ∀ nanInt : Int,
    (runOps nanInt [post worker1, post worker2, .advance "svc.local", delete worker2]
        Workers.empty).Items "svc.local" = [worker1] ∧
    (runOps nanInt [post worker1, post worker2, .advance "svc.local", delete worker2]
        Workers.empty).Position "svc.local" = 1 ∧
    (LoadBalancer.ServeHTTP
        (runOps nanInt [post worker1, post worker2, .advance "svc.local", delete worker2]
          Workers.empty) "svc.local" (.ok "")).response = none := by
  intro nanInt
  refine ⟨by rfl, by rfl, by rfl⟩

/-- C3 (Remove deletes the first match only and completes), evaluated on the code: with
the list `[w, w]` the call panics after deleting one entry; with `[w, x, w, y]` it
completes and has deleted both entries equal to `w`. -/
theorem remove_with_duplicates :
    (LoadBalancer.Remove (runOps 0 [post worker1, post worker1] Workers.empty)
        worker1).panicked = true ∧
    (LoadBalancer.Remove (runOps 0 [post worker1, post worker1] Workers.empty)
        worker1).state.Items "svc.local" = [worker1] ∧
    (LoadBalancer.Remove
        (runOps 0 [post worker1, post worker2, post worker1, post worker3] Workers.empty)
        worker1).panicked = false ∧
    (LoadBalancer.Remove
        (runOps 0 [post worker1, post worker2, post worker1, post worker3] Workers.empty)
        worker1).state.Items "svc.local" = [worker2, worker3] := by
  decide

/-- C5 (the upstream body is relayed verbatim), evaluated on the code: the body is used as
a format string, so the upstream body `hi%d` reaches the client as `hi%!d(MISSING)`. -/
theorem body_used_as_format :
    (LoadBalancer.ServeHTTP (runOps 0 [post worker1] Workers.empty) "svc.local"
        (.ok "hi%d")).response = some ⟨200, "hi%!d(MISSING)"⟩ := by
  decide

/-- C6 (malformed payloads give 400 and leave the registry unchanged), evaluated on the
code: a `DELETE` whose body fails to decode is answered with status 200 and `Remove` runs
on whatever `worker` holds.  When nothing was decoded (the zero worker) it removes a worker
registered with empty host and address and port 0; when the error came after host,
address and port were decoded it removes that registered worker. -/
theorem malformed_delete_not_rejected :
    (Api.ServeHTTP (runOps 0 [post Worker.zero] Workers.empty)
        ⟨"DELETE", Worker.zero, true⟩).response = some ⟨200, removedBody Worker.zero 0⟩ ∧
    (runOps 0 [post Worker.zero] Workers.empty).Items "" = [Worker.zero] ∧
    (Api.ServeHTTP (runOps 0 [post Worker.zero] Workers.empty)
        ⟨"DELETE", Worker.zero, true⟩).state.Items "" = [] ∧
    (Api.ServeHTTP (runOps 0 [post worker1] Workers.empty)
        ⟨"DELETE", worker1, true⟩).response = some ⟨200, removedBody worker1 0⟩ ∧
    (runOps 0 [post worker1] Workers.empty).Items "svc.local" = [worker1] ∧
    (Api.ServeHTTP (runOps 0 [post worker1] Workers.empty)
        ⟨"DELETE", worker1, true⟩).state.Items "svc.local" = [] := by
  decide

/-- C7 (bootstrap emission), evaluated on the code: for a listing with a resource without
annotation followed by an accepted resource, `Create` sends nothing, while the described
emission has the accepted resource's Change. -/
theorem create_stops_at_first_rejected :
    Controller.Create [plainIngress, divvyIngress] = ([], false) ∧
    specCreate [plainIngress, divvyIngress] =
      [⟨"ADDED", ⟨"app.local", "svcA", 8080, ""⟩, divvyIngress⟩] := by
  decide

/-- C9 (advancing over an empty list is a no-op), evaluated on the code: on a host with a
lock and an empty list `Inc` does not panic and stores the integer a NaN converts to,
whatever the cursor was: both from cursor 0 and from cursor 1. -/
theorem inc_on_empty_list : ∀ nanInt : Int,
    (runOps nanInt [post worker1, delete worker1] Workers.empty).Get "svc.local" = [] ∧
    (runOps nanInt [post worker1, delete worker1] Workers.empty).Position "svc.local" = 0 ∧
    ((runOps nanInt [post worker1, delete worker1] Workers.empty).Inc nanInt
        "svc.local").map (fun lb => lb.Position "svc.local") = some nanInt ∧
    (runOps nanInt [post worker1, post worker2, .advance "svc.local", delete worker1,
        delete worker2] Workers.empty).Get "svc.local" = [] ∧
    (runOps nanInt [post worker1, post worker2, .advance "svc.local", delete worker1,
        delete worker2] Workers.empty).Position "svc.local" = 1 ∧
    ((runOps nanInt [post worker1, post worker2, .advance "svc.local", delete worker1,
        delete worker2] Workers.empty).Inc nanInt "svc.local").map
          (fun lb => lb.Position "svc.local") = some nanInt := by
  intro nanInt
  refine ⟨by rfl, by rfl, by rfl, by rfl, by rfl, by rfl⟩

/-! ### Registration -/

/-- C4: a `POST` whose body decodes to a worker appends that worker at the end of its
host's list, whatever the list holds, and reports the previous length plus 1; so on a host
without workers the same `POST` sent twice reports 1 and then 2. -/
theorem post_appends_and_reports_count (lb : Workers) (r : Request)
    (hm : r.Method = "POST") (hd : r.DecodeErr = false) :
    (Api.ServeHTTP lb r).state.Get r.Decoded.Host = lb.Get r.Decoded.Host ++ [r.Decoded] ∧
    (Api.ServeHTTP lb r).response =
      some ⟨200, addedBody r.Decoded ((lb.Get r.Decoded.Host).length + 1)⟩ ∧
    (lb.Get r.Decoded.Host = [] →
      (Api.ServeHTTP lb r).response = some ⟨200, addedBody r.Decoded 1⟩ ∧
      (Api.ServeHTTP (Api.ServeHTTP lb r).state r).response =
        some ⟨200, addedBody r.Decoded 2⟩ ∧
      (Api.ServeHTTP (Api.ServeHTTP lb r).state r).state.Get r.Decoded.Host =
        [r.Decoded, r.Decoded]) := by
  have key : ∀ lb0 : Workers,
      (Api.ServeHTTP lb0 r).state.Get r.Decoded.Host = lb0.Get r.Decoded.Host ++ [r.Decoded] ∧
      (Api.ServeHTTP lb0 r).response =
        some ⟨200, addedBody r.Decoded ((lb0.Get r.Decoded.Host).length + 1)⟩ := by
    intro lb0
    by_cases hk : lb0.Mutex r.Decoded.Host = true <;>
      simp [Api.ServeHTTP, Api.register, Workers.Set, Workers.Get, setKey, hm, hd, hk]
  refine ⟨(key lb).1, (key lb).2, fun hnil => ?_⟩
  have h1 := key lb
  have h2 := key (Api.ServeHTTP lb r).state
  rw [h1.1, hnil] at h2
  rw [hnil] at h1
  exact ⟨h1.2, h2.2, h2.1⟩

/-- C4 at the specification's example: the worker `10.0.0.1:9000` of `svc.local` posted
twice to the empty registry. -/
theorem post_appends_and_reports_count_witness :
    (Api.ServeHTTP Workers.empty ⟨"POST", worker1, false⟩).response =
      some ⟨200, "added worker 10.0.0.1 to workers for host svc.local. " ++
        "There are now 1 workers for svc.local\n"⟩ ∧
    (Api.ServeHTTP (Api.ServeHTTP Workers.empty ⟨"POST", worker1, false⟩).state
        ⟨"POST", worker1, false⟩).response =
      some ⟨200, "added worker 10.0.0.1 to workers for host svc.local. " ++
        "There are now 2 workers for svc.local\n"⟩ ∧
    (Api.ServeHTTP (Api.ServeHTTP Workers.empty ⟨"POST", worker1, false⟩).state
        ⟨"POST", worker1, false⟩).state.Get "svc.local" = [worker1, worker1] :=
  (post_appends_and_reports_count Workers.empty ⟨"POST", worker1, false⟩ rfl rfl).2.2 rfl

/-! ### Invariants of the registry -/

/-- The loop of `Remove` only ever shortens lists: each host's list afterwards is a
sublist of the one before. -/
theorem removeLoop_sublist (worker : Worker) (n : Nat) :
    ∀ (i : Nat) (arr : List Worker) (items : String → List Worker) (g : String),
      ((removeLoop worker n i arr items).1 g).Sublist (items g) := by
  induction n with
  | zero => intro i arr items g; simp [removeLoop]
  | succ n ih =>
    intro i arr items g
    unfold removeLoop
    cases harr : arr.get? i with
    | none => simp
    | some w =>
      simp only []
      by_cases hmatch : w.Address = worker.Address ∧ w.Port = worker.Port
      · rw [if_pos hmatch]
        by_cases hlen : i + 1 ≤ (items w.Host).length
        · rw [if_pos hlen]
          refine (ih _ _ _ g).trans ?_
          unfold setKey
          by_cases hg : g = w.Host
          · rw [if_pos hg, hg, ← List.eraseIdx_eq_take_drop_succ]
            exact List.eraseIdx_sublist _ _
          · rw [if_neg hg]
        · rw [if_neg hlen]
      · rw [if_neg hmatch]
        exact ih _ _ _ g

/-- On a host-consistent registry the loop of `Remove` leaves every host but the
worker's own untouched, also when it panics. -/
theorem removeLoop_frame (worker : Worker) (n : Nat) :
    ∀ (i : Nat) (arr : List Worker) (items : String → List Worker),
      (∀ w ∈ arr, w.Host = worker.Host) → HostConsistent items →
      ∀ g : String, g ≠ worker.Host → (removeLoop worker n i arr items).1 g = items g := by
  induction n with
  | zero => intro i arr items _ _ g _; simp [removeLoop]
  | succ n ih =>
    intro i arr items harrH hcons g hg
    unfold removeLoop
    cases harr : arr.get? i with
    | none => simp
    | some w =>
      have hw : w.Host = worker.Host := harrH w (List.get?_mem harr)
      have hsub : (List.take i (items w.Host) ++ List.drop (i + 1) (items w.Host)).Sublist
          (items w.Host) := by
        rw [← List.eraseIdx_eq_take_drop_succ]
        exact List.eraseIdx_sublist _ _
      simp only []
      by_cases hmatch : w.Address = worker.Address ∧ w.Port = worker.Port
      · rw [if_pos hmatch]
        by_cases hlen : i + 1 ≤ (items w.Host).length
        · rw [if_pos hlen, ih]
          · simp [setKey, hw, hg]
          · intro x hx
            have hnew : ∀ y ∈ List.take i (items w.Host) ++ List.drop (i + 1) (items w.Host),
                y.Host = worker.Host := by
              intro y hy
              rw [← hw]; exact hcons _ y (hsub.subset hy)
            by_cases hh : w.Host = worker.Host
            · rw [if_pos hh] at hx
              rcases List.mem_append.1 hx with h1 | h2
              · exact hnew x h1
              · exact harrH x (List.mem_of_mem_drop h2)
            · rw [if_neg hh] at hx
              exact harrH x hx
          · intro h x hx
            unfold setKey at hx
            by_cases hh : h = w.Host
            · rw [if_pos hh] at hx
              rw [hh]; exact hcons _ x (hsub.subset hx)
            · rw [if_neg hh] at hx
              exact hcons h x hx
          · exact hg
        · rw [if_neg hlen]
      · rw [if_neg hmatch]
        exact ih _ _ _ harrH hcons g hg

/-- The function `Remove` keeps a registry host-consistent. -/
theorem Remove_hostConsistent (lb : Workers) (worker : Worker)
    (h : HostConsistent lb.Items) : HostConsistent (LoadBalancer.Remove lb worker).state.Items := by
  intro g x hx
  exact h g x ((removeLoop_sublist worker _ 0 _ lb.Items g).subset hx)

/-- The registry after the error check and append of the registration handler. -/
theorem register_state (lb : Workers) (w : Worker) (e : Bool) :
    (Api.register lb w e).state.Items =
        (if e then lb.Items else setKey lb.Items w.Host (lb.Items w.Host ++ [w])) ∧
      (Api.register lb w e).state.Position = lb.Position ∧
      ∀ g : String, g ≠ w.Host → (Api.register lb w e).state.Mutex g = lb.Mutex g := by
  cases e with
  | true => simp [Api.register]
  | false =>
    by_cases hk : lb.Mutex w.Host = true
    · simp [Api.register, Workers.Set, hk]
    · refine ⟨?_, ?_, ?_⟩ <;> simp [Api.register, Workers.Set, hk, setKey]
      intro g hg
      simp [hg]

/-- The registry after a registration request, by method. -/
theorem ApiServeHTTP_state (lb : Workers) (r : Request) :
    (Api.ServeHTTP lb r).state =
      if r.Method = "POST" then (Api.register lb r.Decoded r.DecodeErr).state
      else if r.Method = "DELETE" then (LoadBalancer.Remove lb r.Decoded).state
      else (Api.register lb Worker.zero false).state := by
  unfold Api.ServeHTTP
  by_cases h1 : r.Method = "POST"
  · rw [if_pos h1, if_pos h1]
  · rw [if_neg h1, if_neg h1]
    by_cases h2 : r.Method = "DELETE"
    · rw [if_pos h2, if_pos h2]
      simp only []
      split_ifs <;> rfl
    · rw [if_neg h2, if_neg h2]

/-- The registration handler keeps a registry host-consistent. -/
theorem ApiServeHTTP_hostConsistent (lb : Workers) (r : Request)
    (h : HostConsistent lb.Items) : HostConsistent (Api.ServeHTTP lb r).state.Items := by
  have hreg : ∀ (w : Worker) (e : Bool), HostConsistent (Api.register lb w e).state.Items := by
    intro w e g x hx
    rw [(register_state lb w e).1] at hx
    cases e with
    | true => exact h g x hx
    | false =>
      simp only [setKey, Bool.false_eq_true, if_false] at hx
      split_ifs at hx with hg
      · rcases List.mem_append.1 hx with h1 | h2
        · rw [hg]; exact h _ x h1
        · rw [List.mem_singleton.1 h2, hg]
      · exact h g x hx
  rw [ApiServeHTTP_state]
  split_ifs
  · exact hreg _ _
  · exact Remove_hostConsistent lb _ h
  · exact hreg _ _

/-- The function `Inc` does not write to `Items` or `Mutex`, nor to the cursor of another host. -/
theorem Inc_frame (nanInt : Int) (lb lb1 : Workers) (host : String)
    (h : lb.Inc nanInt host = some lb1) :
    lb1.Items = lb.Items ∧ lb1.Mutex = lb.Mutex ∧
      ∀ g : String, g ≠ host → lb1.Position g = lb.Position g := by
  unfold Workers.Inc at h
  split_ifs at h
  simp only [Option.some.injEq] at h
  subst h
  exact ⟨rfl, rfl, fun g hg => by simp [setKey, hg]⟩

/-- Every operation keeps a registry host-consistent. -/
theorem OpApply_hostConsistent (nanInt : Int) (lb : Workers) (op : Op)
    (h : HostConsistent lb.Items) : HostConsistent (Op.apply nanInt lb op).Items := by
  cases op with
  | request r => exact ApiServeHTTP_hostConsistent lb r h
  | advance host =>
    show HostConsistent ((lb.Inc nanInt host).getD lb).Items
    cases hinc : lb.Inc nanInt host with
    | none => exact h
    | some lb1 =>
      show HostConsistent lb1.Items
      rw [(Inc_frame nanInt lb lb1 host hinc).1]
      exact h

/-- Every reachable registry is host-consistent. -/
theorem Reachable_hostConsistent (nanInt : Int) (lb : Workers) (h : Reachable nanInt lb) :
    HostConsistent lb.Items := by
  obtain ⟨ops, rfl⟩ := h
  have gen : ∀ (ops : List Op) (s : Workers), HostConsistent s.Items →
      HostConsistent (runOps nanInt ops s).Items := by
    intro ops
    induction ops with
    | nil => intro s hs; exact hs
    | cons op ops ih =>
      intro s hs
      exact ih _ (OpApply_hostConsistent nanInt s op hs)
  exact gen ops _ (fun g x hx => by simp [Workers.empty] at hx)

/-! ### Locks -/

/-- After a registration that passed the error check the worker's host has a lock. -/
theorem register_lock (lb : Workers) (w : Worker) :
    (Api.register lb w false).state.Mutex w.Host = true := by
  by_cases hk : lb.Mutex w.Host = true
  · simp [Api.register, Workers.Set, hk]
  · simp [Api.register, Workers.Set, hk, setKey]

/-- Every operation keeps the property that a host with a worker has a lock. -/
theorem OpApply_locked (nanInt : Int) (lb : Workers) (op : Op) (h : Locked lb) :
    Locked (Op.apply nanInt lb op) := by
  have hreg : ∀ (w : Worker) (e : Bool), Locked (Api.register lb w e).state := by
    intro w e g hne
    have hs := register_state lb w e
    cases e with
    | true =>
      have hst : (Api.register lb w true).state = lb := by simp [Api.register]
      rw [hst] at hne ⊢
      exact h g hne
    | false =>
      by_cases hg : g = w.Host
      · rw [hg]; exact register_lock lb w
      · rw [hs.2.2 g hg]
        apply h g
        rw [hs.1] at hne
        simpa [setKey, hg] using hne
  cases op with
  | request r =>
    show Locked (Api.ServeHTTP lb r).state
    rw [ApiServeHTTP_state]
    split_ifs
    · exact hreg _ _
    · intro g hne
      apply h g
      intro hnil
      have hsub := removeLoop_sublist r.Decoded (lb.Items r.Decoded.Host).length 0
        (lb.Items r.Decoded.Host) lb.Items g
      rw [hnil] at hsub
      exact hne (List.sublist_nil.1 hsub)
    · exact hreg _ _
  | advance host =>
    show Locked ((lb.Inc nanInt host).getD lb)
    cases hinc : lb.Inc nanInt host with
    | none => exact h
    | some lb1 =>
      have hf := Inc_frame nanInt lb lb1 host hinc
      intro g hne
      rw [Option.getD_some] at hne ⊢
      rw [hf.2.1]
      rw [hf.1] at hne
      exact h g hne

/-- In every reachable registry a host with a worker has a lock: the lock that the
round-robin theorem asks for is there whenever the list is non-empty. -/
theorem Reachable_locked (nanInt : Int) (lb : Workers) (h : Reachable nanInt lb) :
    Locked lb := by
  obtain ⟨ops, rfl⟩ := h
  have gen : ∀ (ops : List Op) (s : Workers), Locked s → Locked (runOps nanInt ops s) := by
    intro ops
    induction ops with
    | nil => intro s hs; exact hs
    | cons op ops ih =>
      intro s hs
      exact ih _ (OpApply_locked nanInt s op hs)
  exact gen ops _ (fun g hne => absurd rfl hne)

/-! ### Round-robin dispatch -/

/-- Below `2 ^ 53` in magnitude the conversion to float64 is exact. -/
theorem float64OfInt_small (x : Int) (h : x.natAbs < 2 ^ 53) : float64OfInt x = x := by
  unfold float64OfInt
  simp only []
  rw [if_pos h]

/-- On a list that float64 counts exactly, `Inc` moves a cursor inside the list to the
next index, wrapping at the end. -/
theorem incValue_exact (nanInt : Int) (c n : Nat) (hc : c < n) (hn : n < 2 ^ 53) :
    incValue nanInt (c : Int) n = (((c + 1) % n : Nat) : Int) := by
  unfold incValue
  have h1 : float64OfInt (c : Int) = c := float64OfInt_small _ (by simpa using by omega)
  have h2 : float64OfInt ((c : Int) + 1) = (c : Int) + 1 :=
    float64OfInt_small _ (by
      have : ((c : Int) + 1).natAbs = c + 1 := by omega
      rw [this]; omega)
  have h3 : float64OfInt (n : Int) = n := float64OfInt_small _ (by simpa using hn)
  simp only []
  rw [h1, h2, h3]
  have hn0 : (n : Int) ≠ 0 := by omega
  rw [if_neg hn0, Int.ofNat_tmod]
  rfl

/-- The requests of a sequential run on a registry whose cursor for `host` is `c`, inside
the list: the `k`-th request is forwarded to the entry at index `(c + k) % N`. -/
theorem serveAll_forwarded (nanInt : Int) (host : String) (L : List Worker)
    (hN : 0 < L.length) (hfit : L.length < 2 ^ 53) :
    ∀ (ups : List Upstream) (lb : Workers) (c : Nat),
      (∀ up ∈ ups, up ≠ Upstream.newRequestErr) →
      lb.Mutex host = true → lb.Items host = L → lb.Position host = (c : Int) →
      c < L.length →
      ∃ ds, LoadBalancer.serveAll nanInt host ups lb = some ds ∧
        ds.map (fun d => d.forwardedTo) =
          (List.range ups.length).map (fun k => L.get? ((c + k) % L.length)) := by
  intro ups
  induction ups with
  | nil => intro lb c _ _ _ _ _; exact ⟨[], rfl, rfl⟩
  | cons up ups ih =>
    intro lb c hups hlock hitems hpos hc
    obtain ⟨wk, hwk⟩ : ∃ wk, L.get? c = some wk :=
      ⟨L.get ⟨c, hc⟩, List.get?_eq_get hc⟩
    have hup : up ≠ Upstream.newRequestErr := hups up (List.mem_cons_self _ _)
    have hserve : (LoadBalancer.ServeHTTP lb host up).forwardedTo = some wk ∧
        (LoadBalancer.ServeHTTP lb host up).inc = true := by
      have hlen : ¬ L.length = 0 := by omega
      unfold LoadBalancer.ServeHTTP
      simp only [Workers.Get, Workers.GetPosition, hitems, hlock, hpos, if_true, hlen,
        if_false]
      have hneg : ¬ ((c : Int) < 0) := by omega
      simp only [hneg, if_false, Int.toNat_ofNat, hwk]
      cases up with
      | newRequestErr => exact absurd rfl hup
      | doErr => exact ⟨rfl, rfl⟩
      | readErr read => exact ⟨rfl, rfl⟩
      | ok body => exact ⟨rfl, rfl⟩
    have hinc : lb.Inc nanInt host = some { lb with
        Position := setKey lb.Position host (((c + 1) % L.length : Nat) : Int) } := by
      unfold Workers.Inc
      rw [if_pos hlock, hpos]
      simp only [Workers.Get, hitems]
      rw [incValue_exact nanInt c L.length hc hfit]
    obtain ⟨ds, hds, hmap⟩ := ih { lb with
        Position := setKey lb.Position host (((c + 1) % L.length : Nat) : Int) }
      ((c + 1) % L.length) (fun u hu => hups u (List.mem_cons_of_mem _ hu)) hlock hitems
      (by simp [setKey]) (Nat.mod_lt _ hN)
    refine ⟨LoadBalancer.ServeHTTP lb host up :: ds, ?_, ?_⟩
    · unfold LoadBalancer.serveAll
      simp only []
      rw [if_pos hserve.2, hinc]
      simp only [hds, Option.map_some']
    · rw [List.map_cons, hserve.1, hmap, List.length_cons, List.range_succ_eq_map,
        List.map_cons, List.map_map]
      refine congrArg₂ _ (by simpa [Nat.mod_eq_of_lt hc] using hwk.symm) ?_
      apply List.map_congr_left
      intro k _
      simp only [Function.comp, Nat.succ_eq_add_one]
      congr 1
      rw [Nat.mod_add_mod]
      congr 1
      omega

/-- Any `N` consecutive steps of a cursor that advances by one modulo `N` visit every
index below `N` exactly once. -/
theorem cursor_window_perm (N c j : Nat) (hN : 0 < N) :
    ((List.range' j N).map (fun k => (c + k) % N)).Perm (List.range N) := by
  have hnodup : ((List.range' j N).map (fun k => (c + k) % N)).Nodup := by
    refine List.Nodup.map_on ?_ (List.nodup_range' j N)
    have key : ∀ x y : Nat, x ≤ y → y < x + N → (c + x) % N = (c + y) % N → x = y := by
      intro x y hxy hlt h
      have hdvd : N ∣ (c + y) - (c + x) := (Nat.modEq_iff_dvd' (by omega)).1 h
      have hz : (c + y) - (c + x) = 0 := Nat.eq_zero_of_dvd_of_lt hdvd (by omega)
      omega
    intro x hx y hy h
    rw [List.mem_range'_1] at hx hy
    rcases Nat.le_total x y with hxy | hyx
    · exact key x y hxy (by omega) h
    · exact (key y x hyx (by omega) h.symm).symm
  have hsub : (List.range' j N).map (fun k => (c + k) % N) ⊆ List.range N := by
    intro x hx
    obtain ⟨k, _, rfl⟩ := List.mem_map.1 hx
    exact List.mem_range.2 (Nat.mod_lt _ hN)
  exact (List.subperm_of_subset hnodup hsub).perm_of_length_le (by simp)

/-- Reading a list at the indices `0, 1, ..., length - 1` gives the list. -/
theorem map_get?_range (L : List Worker) :
    (List.range L.length).map (fun i => L.get? i) = L.map some := by
  apply List.ext_get?
  intro n
  by_cases hn : n < L.length
  · simp [List.getElem?_range hn, hn]
  · have h1 : L.length ≤ n := Nat.le_of_not_lt hn
    simp [List.getElem?_eq_none, h1]

/-- A window of `N` consecutive request numbers starting at `j`. -/
theorem take_drop_range (len j N : Nat) (h : j + N ≤ len) :
    ((List.range len).drop j).take N = List.range' j N := by
  apply List.ext_getElem?
  intro n
  by_cases hn : n < N
  · rw [List.getElem?_take_of_lt hn, List.getElem?_drop, List.getElem?_range (by omega),
      List.getElem?_range' _ _ hn]
    simp
  · have h1 : N ≤ n := Nat.le_of_not_lt hn
    rw [List.getElem?_eq_none (by simp; omega), List.getElem?_eq_none (by simp; omega)]

/-- C1, as amended: on a host with `N ≥ 1` workers, a lock, and a cursor `p` inside the
list, if no worker is added or removed in between, the forward request of every dispatch
can be constructed (`http.NewRequest` succeeds, so the handler reaches `client.Do` and
starts `Inc`) and each dispatch's `Inc` is applied before the next dispatch selects, then
the `k`-th dispatch is forwarded to the worker at index `(p + k) % N`; any `N` consecutive
dispatches use every index exactly once and so reach the workers of the list, each as
often as it is listed; from cursor 0 the dispatches follow insertion order and then
repeat.  (The list is short enough for float64 to count it exactly, `N < 2 ^ 53`.) -/
theorem round_robin_dispatch (nanInt : Int) (lb : Workers) (host : String)
    (ups : List Upstream)
    (hlock : lb.Mutex host = true)
    (hN : 1 ≤ (lb.Items host).length) (hfit : (lb.Items host).length < 2 ^ 53)
    (hp0 : 0 ≤ lb.Position host) (hp : lb.Position host < (lb.Items host).length)
    (hups : ∀ up ∈ ups, up ≠ Upstream.newRequestErr) :
    ∃ ds, LoadBalancer.serveAll nanInt host ups lb = some ds ∧
      ds.map (fun d => d.forwardedTo) =
        (List.range ups.length).map (fun k =>
          (lb.Items host).get? (((lb.Position host).toNat + k) % (lb.Items host).length)) ∧
      (∀ j : Nat,
        ((List.range' j (lb.Items host).length).map (fun k =>
          ((lb.Position host).toNat + k) % (lb.Items host).length)).Perm
            (List.range (lb.Items host).length) ∧
        (j + (lb.Items host).length ≤ ups.length →
          (((ds.drop j).take (lb.Items host).length).map (fun d => d.forwardedTo)).Perm
            ((lb.Items host).map some))) ∧
      (lb.Position host = 0 →
        ds.map (fun d => d.forwardedTo) =
          (List.range ups.length).map (fun k =>
            (lb.Items host).get? (k % (lb.Items host).length)) ∧
        ((lb.Items host).length ≤ ups.length →
          (ds.take (lb.Items host).length).map (fun d => d.forwardedTo) =
            (lb.Items host).map some)) := by
  obtain ⟨c, hc⟩ : ∃ c : Nat, lb.Position host = (c : Int) :=
    ⟨(lb.Position host).toNat, (Int.toNat_of_nonneg hp0).symm⟩
  have hcN : c < (lb.Items host).length := by rw [hc] at hp; exact_mod_cast hp
  obtain ⟨ds, hds, hmap⟩ := serveAll_forwarded nanInt host (lb.Items host) hN hfit ups lb c
    hups hlock rfl hc hcN
  have hwin : ∀ j : Nat, j + (lb.Items host).length ≤ ups.length →
      ((ds.drop j).take (lb.Items host).length).map (fun d => d.forwardedTo) =
        ((List.range' j (lb.Items host).length).map
          (fun k => (c + k) % (lb.Items host).length)).map (fun i => (lb.Items host).get? i) := by
    intro j hj
    rw [List.map_take, List.map_drop, hmap, ← List.map_drop, ← List.map_take,
      take_drop_range _ _ _ hj, List.map_map]
    rfl
  refine ⟨ds, hds, ?_, ?_, ?_⟩
  · rw [hmap, hc, Int.toNat_ofNat]
  · intro j
    rw [hc, Int.toNat_ofNat]
    refine ⟨cursor_window_perm _ c j hN, fun hj => ?_⟩
    rw [hwin j hj, ← map_get?_range]
    exact (cursor_window_perm _ c j hN).map _
  · intro h0
    have hc0 : c = 0 := by rw [hc] at h0; exact_mod_cast h0
    subst hc0
    refine ⟨by simpa using hmap, fun hlen => ?_⟩
    have h := hwin 0 (by omega)
    rw [List.drop_zero] at h
    rw [h, ← map_get?_range, ← List.range_eq_range']
    congr 1
    conv_rhs => rw [← List.map_id (List.range (lb.Items host).length)]
    apply List.map_congr_left
    intro k hk
    rw [Nat.zero_add, Nat.mod_eq_of_lt (List.mem_range.1 hk)]
    rfl

/-- C1 at a concrete registry: three workers registered for `svc.local`, then four
requests; the fourth is forwarded to the first worker again. -/
theorem round_robin_dispatch_witness :
    ∃ ds, LoadBalancer.serveAll 0 "svc.local" [.ok "a", .doErr, .ok "b", .ok "c"]
        (runOps 0 [post worker1, post worker2, post worker3] Workers.empty) = some ds ∧
      ds.map (fun d => d.forwardedTo) =
        [some worker1, some worker2, some worker3, some worker1] := by
  obtain ⟨ds, h1, h2, -, -⟩ := round_robin_dispatch 0
    (runOps 0 [post worker1, post worker2, post worker3] Workers.empty) "svc.local"
    [.ok "a", .doErr, .ok "b", .ok "c"] (by decide) (by decide) (by decide) (by decide)
    (by decide) (by decide)
  exact ⟨ds, h1, h2.trans (by decide)⟩

/-- C1 as stated fails on the code: with three workers registered for `svc.local`, cursor
0, and four dispatches served one after the other of which the second cannot construct
its forward request, the handler of the second returns before it starts `Inc`: the
dispatches are forwarded to the first worker, to no worker, to the second and to the
third, not to the workers at the indices `(0 + k) % 3`, which are the first, the second,
the third and the first.  (The list is non-empty, so the integer a NaN converts to plays
no part.) -/
theorem round_robin_dispatch_counterexample :
    (runOps 0 [post worker1, post worker2, post worker3] Workers.empty).Items "svc.local" =
        [worker1, worker2, worker3] ∧
    (runOps 0 [post worker1, post worker2, post worker3] Workers.empty).Position
        "svc.local" = 0 ∧
    (LoadBalancer.serveAll 0 "svc.local" [.ok "a", .newRequestErr, .ok "b", .ok "c"]
        (runOps 0 [post worker1, post worker2, post worker3] Workers.empty)).map
          (List.map (fun d => d.forwardedTo)) =
        some [some worker1, none, some worker2, some worker3] ∧
    ¬ ∃ ds, LoadBalancer.serveAll 0 "svc.local"
          [.ok "a", .newRequestErr, .ok "b", .ok "c"]
          (runOps 0 [post worker1, post worker2, post worker3] Workers.empty) = some ds ∧
        ds.map (fun d => d.forwardedTo) =
          (List.range 4).map (fun k => [worker1, worker2, worker3].get? ((0 + k) % 3)) := by
  have h3 : (LoadBalancer.serveAll 0 "svc.local" [.ok "a", .newRequestErr, .ok "b", .ok "c"]
      (runOps 0 [post worker1, post worker2, post worker3] Workers.empty)).map
        (List.map (fun d => d.forwardedTo)) =
      some [some worker1, none, some worker2, some worker3] := by decide
  refine ⟨by decide, by decide, h3, ?_⟩
  rintro ⟨ds, h1, h2⟩
  rw [h1, Option.map_some', h2] at h3
  exact absurd h3 (by decide)

/-! ### Host independence -/

/-- The function `Remove` on a host-consistent registry writes only to the list of the
worker's host. -/
theorem Remove_frame (lb : Workers) (w : Worker) (hcons : HostConsistent lb.Items)
    (g : String) (hg : g ≠ w.Host) :
    (LoadBalancer.Remove lb w).state.Items g = lb.Items g ∧
      (LoadBalancer.Remove lb w).state.Position = lb.Position ∧
      (LoadBalancer.Remove lb w).state.Mutex = lb.Mutex :=
  ⟨removeLoop_frame w _ 0 _ lb.Items (fun x hx => hcons _ x hx) hcons g hg, rfl, rfl⟩

/-- C8: in every reachable registry and for hosts `A ≠ B`, a `POST` or `DELETE` request
for a worker of `A` (whether or not its body decodes), a call of `Remove` for a worker of
`A`, and an advance of the cursor of `A` each leave the list, the cursor and the lock of
`B` as they were. -/
theorem host_independence (nanInt : Int) (lb : Workers) (hreach : Reachable nanInt lb)
    (A B : String) (hAB : A ≠ B) :
    (∀ (w : Worker) (e : Bool), w.Host = A →
      (Api.ServeHTTP lb ⟨"POST", w, e⟩).state.Items B = lb.Items B ∧
      (Api.ServeHTTP lb ⟨"POST", w, e⟩).state.Position B = lb.Position B ∧
      (Api.ServeHTTP lb ⟨"POST", w, e⟩).state.Mutex B = lb.Mutex B) ∧
    (∀ (w : Worker) (e : Bool), w.Host = A →
      (Api.ServeHTTP lb ⟨"DELETE", w, e⟩).state.Items B = lb.Items B ∧
      (Api.ServeHTTP lb ⟨"DELETE", w, e⟩).state.Position B = lb.Position B ∧
      (Api.ServeHTTP lb ⟨"DELETE", w, e⟩).state.Mutex B = lb.Mutex B) ∧
    (∀ w : Worker, w.Host = A →
      (LoadBalancer.Remove lb w).state.Items B = lb.Items B ∧
      (LoadBalancer.Remove lb w).state.Position B = lb.Position B ∧
      (LoadBalancer.Remove lb w).state.Mutex B = lb.Mutex B) ∧
    ((Op.apply nanInt lb (.advance A)).Items B = lb.Items B ∧
      (Op.apply nanInt lb (.advance A)).Position B = lb.Position B ∧
      (Op.apply nanInt lb (.advance A)).Mutex B = lb.Mutex B) := by
  have hcons := Reachable_hostConsistent nanInt lb hreach
  have hrem : ∀ w : Worker, w.Host = A →
      (LoadBalancer.Remove lb w).state.Items B = lb.Items B ∧
      (LoadBalancer.Remove lb w).state.Position B = lb.Position B ∧
      (LoadBalancer.Remove lb w).state.Mutex B = lb.Mutex B := by
    intro w hw
    have h := Remove_frame lb w hcons B (by rw [hw]; exact hAB.symm)
    exact ⟨h.1, by rw [h.2.1], by rw [h.2.2]⟩
  refine ⟨?_, ?_, hrem, ?_⟩
  · intro w e hw
    have hB : B ≠ w.Host := by rw [hw]; exact hAB.symm
    have h := register_state lb w e
    rw [ApiServeHTTP_state]
    simp only [if_true]
    refine ⟨?_, by rw [h.2.1], h.2.2 B hB⟩
    rw [h.1]
    cases e with
    | true => rfl
    | false => simp [setKey, hB]
  · intro w e hw
    rw [ApiServeHTTP_state]
    have hne : ¬ ("DELETE" = "POST") := by decide
    simp only [hne, if_false, if_true]
    exact hrem w hw
  · show ((lb.Inc nanInt A).getD lb).Items B = lb.Items B ∧
      ((lb.Inc nanInt A).getD lb).Position B = lb.Position B ∧
      ((lb.Inc nanInt A).getD lb).Mutex B = lb.Mutex B
    cases hinc : lb.Inc nanInt A with
    | none => exact ⟨rfl, rfl, rfl⟩
    | some lb1 =>
      have h := Inc_frame nanInt lb lb1 A hinc
      exact ⟨by rw [Option.getD_some, h.1], by rw [Option.getD_some]; exact h.2.2 B hAB.symm,
        by rw [Option.getD_some, h.2.1]⟩

/-- C8 at a concrete registry: with workers registered for `svc.local` and `app.local`,
another `POST` for `svc.local` leaves the list of `app.local` as it was. -/
theorem host_independence_witness :
    (Api.ServeHTTP
        (runOps 0 [post worker1, post ⟨"app.local", "svcA", 8080, ""⟩, .advance "svc.local"]
          Workers.empty) ⟨"POST", worker2, false⟩).state.Items "app.local" =
      [⟨"app.local", "svcA", 8080, ""⟩] :=
  ((host_independence 0
      (runOps 0 [post worker1, post ⟨"app.local", "svcA", 8080, ""⟩, .advance "svc.local"]
        Workers.empty) ⟨_, rfl⟩ "svc.local" "app.local" (by decide)).1 worker2 false rfl).1.trans
    (by decide)

/-! ### Status list -/

/-- C10: `sliceToStatus` returns the stable sort by the `IP` string of the endpoints
mapped, in input order, to an IP entry when the endpoint parses as an IP literal and to a
Hostname entry otherwise: the result is a rearrangement of the mapped list, ordered by
`IP`, in which entries with the same `IP` keep their input order; it has one entry per
endpoint.  For `10.0.0.5` (an IP literal) and `example.com` (not one) it gives an IP entry
for the former and a Hostname entry for the latter. -/
theorem sliceToStatus_stable_sort (parseIP : String → Bool) (endpoints : List String) :
    (sliceToStatus parseIP endpoints).Perm
        (endpoints.map (fun ep =>
          if parseIP ep then (⟨ep, ""⟩ : LoadBalancerIngress) else ⟨"", ep⟩)) ∧
      (sliceToStatus parseIP endpoints).Pairwise (fun a b => a.IP ≤ b.IP) ∧
      (∀ key : String,
        (sliceToStatus parseIP endpoints).filter (fun e => e.IP = key) =
          (endpoints.map (fun ep =>
            if parseIP ep then (⟨ep, ""⟩ : LoadBalancerIngress) else ⟨"", ep⟩)).filter
              (fun e => e.IP = key)) ∧
      (sliceToStatus parseIP endpoints).length = endpoints.length ∧
      (parseIP "10.0.0.5" = true → parseIP "example.com" = false →
        sliceToStatus parseIP ["10.0.0.5", "example.com"] =
          [⟨"", "example.com"⟩, ⟨"10.0.0.5", ""⟩]) := by
  haveI : IsTotal LoadBalancerIngress (fun a b => a.IP ≤ b.IP) := ⟨fun a b => le_total _ _⟩
  haveI : IsTrans LoadBalancerIngress (fun a b => a.IP ≤ b.IP) :=
    ⟨fun _ _ _ h1 h2 => le_trans h1 h2⟩
  have hperm : (sliceToStatus parseIP endpoints).Perm (endpoints.map (classify parseIP)) :=
    List.perm_insertionSort _ _
  have hmapeq : endpoints.map (classify parseIP) = endpoints.map (fun ep =>
      if parseIP ep then (⟨ep, ""⟩ : LoadBalancerIngress) else ⟨"", ep⟩) := rfl
  rw [← hmapeq]
  refine ⟨hperm, List.sorted_insertionSort _ _, ?_, ?_, ?_⟩
  · intro key
    have hpair : ((endpoints.map (classify parseIP)).filter (fun e => e.IP = key)).Pairwise
        (fun a b => a.IP ≤ b.IP) := by
      rw [List.pairwise_iff_forall_sublist]
      intro a b hab
      have ha : a ∈ (endpoints.map (classify parseIP)).filter (fun e => e.IP = key) :=
        hab.subset (by simp)
      have hb : b ∈ (endpoints.map (classify parseIP)).filter (fun e => e.IP = key) :=
        hab.subset (by simp)
      have ha1 : a.IP = key := by simpa using (List.mem_filter.1 ha).2
      have hb1 : b.IP = key := by simpa using (List.mem_filter.1 hb).2
      rw [ha1, hb1]
    have hsub : ((endpoints.map (classify parseIP)).filter (fun e => e.IP = key)).Sublist
        ((sliceToStatus parseIP endpoints).filter (fun e => e.IP = key)) := by
      have h1 := List.Sublist.filter (fun e : LoadBalancerIngress => decide (e.IP = key))
        (List.sublist_insertionSort hpair (List.filter_sublist _))
      simp only [List.filter_filter, Bool.and_self] at h1
      exact h1
    exact (hsub.eq_of_length ((hperm.filter _).length_eq).symm).symm
  · rw [hperm.length_eq, List.length_map]
  · intro hip hhost
    have hnle : ¬ (("10.0.0.5" : String) ≤ "") := by
      rw [String.le_iff_toList_le]; decide
    simp [sliceToStatus, classify, hip, hhost, List.insertionSort, List.orderedInsert, hnle]

/-- C10 on the specification's example, with dotted-decimal IPv4 literals as the IP
literals: `10.0.0.5` becomes an IP entry, `example.com` a Hostname entry, and the Hostname
entry (empty `IP`) sorts first. -/
theorem sliceToStatus_stable_sort_witness :
    dottedQuad "10.0.0.5" = true ∧ dottedQuad "example.com" = false ∧
      sliceToStatus dottedQuad ["10.0.0.5", "example.com"] =
        [⟨"", "example.com"⟩, ⟨"10.0.0.5", ""⟩] :=
  ⟨by decide, by decide,
    (sliceToStatus_stable_sort dottedQuad ["10.0.0.5", "example.com"]).2.2.2.2
      (by decide) (by decide)⟩
